import Mathlib

/-!
Verification of the BackcastPro backtesting engine against its
natural-language specification.

The engine's public surface lives in `backtest.py` (the `Backtest.run`
simulation loop and the grid/model optimizer), `strategy.py` (the
`Strategy` host: parameter checking, indicator declaration, `buy`/`sell`)
and `_orders.py` (the pending-orders snapshot).  Prices, equity and cash
are embedded as exact numbers — prices and cash as integer multiples of
the pip (`ℤ`), order sizes as `ℚ` where fractions matter — and an indicator
value is `Option ℚ`, with `none` standing for NaN.  The broker tick, the trade `close()` request and
the warm-up counter are implemented in modules not present in the source
tree, so those pieces are modelled from the specification and marked as
such in their doc comments.
-/

namespace BackcastPro

/-! ## Definitions: the embedded data model and operations -/

/-- Translation of the guard `assert 0 < size < 1 or round(size) == size >= 1`
from `Strategy.buy` / `Strategy.sell`.  For a rational, `round(size) == size`
holds exactly when the denominator is 1. -/
def sizeOK (size : ℚ) : Bool :=
  decide ((0 < size ∧ size < 1) ∨ (size.den = 1 ∧ 1 ≤ size))

/-- Default order size `_FULL_EQUITY = 1 - sys.float_info.epsilon`; the
machine epsilon of a binary64 float is exactly `2⁻⁵²`. -/
def FULL_EQUITY : ℚ := 1 - 1 / 2 ^ 52

/-- Embeds `Strategy.buy`: after the size assertion the broker receives the
size unchanged (`new_order(size, ...)`).  The result is the signed size
submitted to the broker. -/
def buy (size : ℚ) : Except String ℚ :=
  if sizeOK size then Except.ok size
  else Except.error "size must be a positive fraction of equity or a positive whole number of units"

/-- Embeds `Strategy.sell`: after the same assertion the broker receives the
negated size (`new_order(-size, ...)`). -/
def sell (size : ℚ) : Except String ℚ :=
  if sizeOK size then Except.ok (-size)
  else Except.error "size must be a positive fraction of equity or a positive whole number of units"

/-- Lifecycle state of an order (spec §3: Pending, Filled, Cancelled). -/
inductive OrderState where
  | pendingState
  | filledState
  | cancelledState
deriving DecidableEq, Repr

/-- Modelled from the spec: the `Order` record of `order.py` is not in the
source tree.  Per spec §3 an order is *contingent* exactly when its
`parent_trade` back-reference is set, and `Order.cancel()` moves the order
to the Cancelled lifecycle state. -/
structure MOrder where
  size : ℚ
  hasParentTrade : Bool
  state : OrderState
deriving DecidableEq, Repr

/-- Modelled from the spec: `Order.cancel()` sets the lifecycle state to
Cancelled. -/
def MOrder.cancel (o : MOrder) : MOrder :=
  { o with state := OrderState.cancelledState }

/-- Modelled from the spec: `Order.is_contingent` holds when the order has a
parent trade (an attached SL/TP order). -/
def MOrder.isContingent (o : MOrder) : Bool :=
  o.hasParentTrade

/-- Translation of `_Orders.cancel` from `_orders.py`: for every order in
the snapshot, if it is not contingent, cancel it; contingent orders are
skipped. -/
def ordersCancel (os : List MOrder) : List MOrder :=
  os.map fun o => if o.isContingent then o else o.cancel

/-- Translation of `Strategy._check_params`: fold over the override mapping;
for each key, if the evolving instance has no such attribute
(`not hasattr(self, k)`), raise `AttributeError`; otherwise `setattr` the
value.  The instance is modelled as a partial map from attribute names to
values, and the error carries the offending key. -/
def checkParams (inst : String → Option ℚ) :
    List (String × ℚ) → Except String (String → Option ℚ)
  | [] => Except.ok inst
  | (k, v) :: ps =>
      if (inst k).isSome then
        checkParams (fun k' => if k' = k then some v else inst k') ps
      else
        Except.error k

/-- Modelled from the spec (missing `trade.py`): an open trade carries a
signed integer size, entry bar and entry price; `Trade.close()` requests
closure, which the next broker tick performs. -/
structure MTrade where
  size : ℤ
  entryBar : ℕ
  entryPrice : ℤ
  closeRequested : Bool
deriving DecidableEq, Repr

/-- Modelled from the spec (missing `trade.py`): a closed trade additionally
records the exit bar and exit price. -/
structure ClosedTrade where
  size : ℤ
  entryBar : ℕ
  entryPrice : ℤ
  exitBar : ℕ
  exitPrice : ℤ
deriving DecidableEq, Repr

/-- Modelled from the spec (missing `order.py`): a pending market order in
the broker queue, remembering the bar on which the strategy submitted it. -/
structure PendingOrder where
  size : ℤ
  submitBar : ℕ
deriving DecidableEq, Repr

/-- Modelled from the spec (missing `_broker.py`): broker state — cash, open
trades, closed trades, the pending-order queue, the per-bar equity record
`_equity` (`none` is NaN), and a log of processed orders as pairs
(processing bar, submission bar). -/
structure Broker where
  cash : ℤ
  trades : List MTrade
  closedTrades : List ClosedTrade
  pending : List PendingOrder
  equityRec : List (Option ℤ)
  processedLog : List (ℕ × ℕ)
deriving DecidableEq, Repr

/-- Modelled from the spec (missing `_broker.py`): one broker tick on bar
`i`, collapsing OHLC to the bar's Close.  In the spec's strict order:
contingent/explicit close orders are resolved first, then pending orders
fill in submission order, then the out-of-money guard (`equity ≤ 0` raises
the internal signal, returned here as the `Bool`), and only then is
`equity[i]` recorded.  The spec's broker invariant
`equity = cash + Σ trade.size · Close` fixes the cash transfers on entry
and exit. -/
def brokerNext (i : ℕ) (price : ℤ) (b : Broker) : Broker × Bool :=
  let toClose := b.trades.filter (fun t => t.closeRequested)
  let remaining := b.trades.filter (fun t => !t.closeRequested)
  let cash1 := b.cash + (toClose.map (fun t => t.size * price)).sum
  let closed1 := b.closedTrades ++
    toClose.map (fun t => (⟨t.size, t.entryBar, t.entryPrice, i, price⟩ : ClosedTrade))
  let newTrades := b.pending.map (fun o => (⟨o.size, i, price, false⟩ : MTrade))
  let cash2 := cash1 - (b.pending.map (fun o => o.size * price)).sum
  let log2 := b.processedLog ++ b.pending.map (fun o => (i, o.submitBar))
  let trades2 := remaining ++ newTrades
  let b' : Broker := { cash := cash2, trades := trades2, closedTrades := closed1,
                       pending := [], equityRec := b.equityRec, processedLog := log2 }
  let equity := cash2 + (trades2.map (fun t => t.size * price)).sum
  if equity ≤ 0 then (b', true)
  else ({ b' with equityRec := b.equityRec.set i (some equity) }, false)

/-- Count of leading NaN entries of one indicator array. -/
def leadingNaNs : List (Option ℚ) → ℕ
  | [] => 0
  | none :: xs => 1 + leadingNaNs xs
  | some _ :: _ => 0

/-- Modelled from the spec (missing `_util.py`): `_indicator_warmup_nbars` =
max over the strategy's declared indicators of the count of leading NaNs. -/
def warmupNBars (indicators : List (List (Option ℚ))) : ℕ :=
  (indicators.map leadingNaNs).foldr max 0

/-- Data and indicator prefix revealed to `Strategy.next` on bar `i`
(`data._set_length(i + 1)` and `indicator[..., :i + 1]`). -/
structure StratView where
  closes : List ℤ
  indicators : List (List (Option ℚ))
deriving DecidableEq, Repr

/-- Inputs of one `Backtest.run` call: the Close column, the indicator
arrays declared by `Strategy.I` during `init()`, the user strategy's
`next()` logic (returning signed market-order sizes for the bar), the
initial cash, and the `finalize_trades` flag. -/
structure RunConfig where
  closes : List ℤ
  indicators : List (List (Option ℚ))
  nextLogic : ℕ → StratView → List ℤ
  cash : ℤ
  finalizeTrades : Bool

/-- Loop phases of `Backtest.run` in the order they appear for bar `i`:
data/indicator reveal, `broker.next()`, `strategy.next()`. -/
inductive Phase where
  | reveal (i : ℕ)
  | tick (i : ℕ)
  | snext (i : ℕ)
deriving DecidableEq, Repr

/-- Running state of the bar loop: the broker, the trace of phases executed
so far, and whether `_OutOfMoneyError` broke the loop. -/
structure LoopState where
  broker : Broker
  trace : List Phase
  aborted : Bool
deriving DecidableEq, Repr

/-- Visible prefix for bar `i`. -/
def stratView (cfg : RunConfig) (i : ℕ) : StratView :=
  { closes := cfg.closes.take (i + 1),
    indicators := cfg.indicators.map (fun ind => ind.take (i + 1)) }

/-- Translation of one iteration of the `for i in range(start, len(data))`
loop of `Backtest.run`: reveal the data/indicator prefix, run
`broker.next()` (catching `_OutOfMoneyError` as a `break`), then run
`strategy.next()`, whose new orders join the pending queue.  After a break
the remaining iterations do nothing. -/
def doBar (cfg : RunConfig) (s : LoopState) (i : ℕ) : LoopState :=
  if s.aborted then s
  else
    match brokerNext i (cfg.closes.getD i 0) s.broker with
    | (b, true) =>
        { broker := b, trace := s.trace ++ [Phase.reveal i, Phase.tick i], aborted := true }
    | (b, false) =>
        { broker := { b with pending := b.pending ++
            (cfg.nextLogic i (stratView cfg i)).map (fun z => ⟨z, i⟩) },
          trace := s.trace ++ [Phase.reveal i, Phase.tick i, Phase.snext i],
          aborted := false }

/-- Warm-up skip of `Backtest.run`: `start = 1 + _indicator_warmup_nbars(strategy)`. -/
def startBar (cfg : RunConfig) : ℕ := 1 + warmupNBars cfg.indicators

/-- Initial broker state (`_Broker(cash=cash, ...)`); `_equity` starts as an
all-NaN array of the data's length. -/
def initBroker (cfg : RunConfig) : Broker :=
  { cash := cfg.cash, trades := [], closedTrades := [], pending := [],
    equityRec := List.replicate cfg.closes.length none, processedLog := [] }

/-- The bar loop of `Backtest.run` over `range(start, len(data))`. -/
def runLoop (cfg : RunConfig) : LoopState :=
  (List.range' (startBar cfg) (cfg.closes.length - startBar cfg)).foldl (doBar cfg)
    { broker := initBroker cfg, trace := [], aborted := false }

/-- Translation of pandas `Series.bfill()` as used on `broker._equity`: each
NaN entry is replaced by the next recorded value after it, if any. -/
def bfill : List (Option ℤ) → List (Option ℤ)
  | [] => []
  | x :: xs =>
      let r := bfill xs
      (match x with
       | some v => some v
       | none => r.head?.getD none) :: r

/-- Translation of `.fillna(broker._cash)`: remaining NaNs become `c`. -/
def fillnaWith (c : ℤ) (xs : List (Option ℤ)) : List ℤ :=
  xs.map (fun x => x.getD c)

/-- Modelled from the spec (missing `_stats.py`): `compute_stats` abstracted
to the fields the claims consume — the closed-trade count (`# Trades`) and
the final equity. -/
structure Stats where
  numTrades : ℕ
  equityFinal : ℤ
deriving DecidableEq, Repr

/-- Modelled from the spec (missing `_stats.py`): fold of the closed trades
and the equity curve into the statistics record. -/
def computeStats (closed : List ClosedTrade) (equity : List ℤ) : Stats :=
  { numTrades := closed.length, equityFinal := equity.getLast?.getD 0 }

/-- Everything `Backtest.run` produces. -/
structure RunResult where
  broker : Broker
  trace : List Phase
  aborted : Bool
  openTradesWarning : Bool
  equityCurve : List ℤ
  stats : Stats
deriving DecidableEq, Repr

/-- Modelled from the spec (missing `trade.py`): `trade.close()` on every
remaining open trade, in the `for trade in reversed(broker.trades)` sweep
of `Backtest.run` — each trade gets a close request for the next tick. -/
def markAllClosed (b : Broker) : Broker :=
  { b with trades := b.trades.map (fun t => { t with closeRequested := true }) }

/-- Translation of the `for`–`else` finalization branch of `Backtest.run`
with `finalize_trades=True`: every remaining open trade gets a close
request (`trade.close()`), then the broker is re-run once on the last
bar's values to process those closes (guarded by `start < len(data)`;
`try_` swallows a further out-of-money signal, mutations persisting). -/
def finalizedBroker (cfg : RunConfig) : Broker :=
  if startBar cfg < cfg.closes.length then
    (brokerNext (cfg.closes.length - 1) (cfg.closes.getD (cfg.closes.length - 1) 0)
      (markAllClosed (runLoop cfg).broker)).1
  else markAllClosed (runLoop cfg).broker

/-- Broker state after the `for`–`else` block of `Backtest.run`: untouched
when the loop was aborted (`break` skips the `else`), finalized when
`finalize_trades=True`, untouched otherwise. -/
def finalBroker (cfg : RunConfig) : Broker :=
  if (runLoop cfg).aborted then (runLoop cfg).broker
  else if cfg.finalizeTrades then finalizedBroker cfg
  else (runLoop cfg).broker

/-- Translation of `Backtest.run`: run the bar loop; on normal termination
(`for`–`else`) either close all remaining trades and re-run the broker on
the last bar (`finalize_trades=True`), or warn when trades remain open
(`elif len(broker.trades)`); then build the equity curve as
`pd.Series(broker._equity).bfill().fillna(broker._cash)` and compute the
statistics over the closed trades. -/
def runBacktest (cfg : RunConfig) : RunResult :=
  { broker := finalBroker cfg,
    trace := (runLoop cfg).trace,
    aborted := (runLoop cfg).aborted,
    openTradesWarning := (!(runLoop cfg).aborted) && (!cfg.finalizeTrades) &&
      !((runLoop cfg).broker.trades.isEmpty),
    equityCurve := fillnaWith (finalBroker cfg).cash (bfill (finalBroker cfg).equityRec),
    stats := computeStats (finalBroker cfg).closedTrades
      (fillnaWith (finalBroker cfg).cash (bfill (finalBroker cfg).equityRec)) }

/-- Phases executed for one fully processed bar. -/
def barBlock (i : ℕ) : List Phase := [Phase.reveal i, Phase.tick i, Phase.snext i]

/-- Concrete run for C1's witness: one indicator with two leading NaNs over
five bars, so the loop starts at bar 3. -/
def warmCfg : RunConfig :=
  { closes := [1, 1, 1, 1, 1],
    indicators := [[none, none, some 1, some 2, some 3]],
    nextLogic := fun _ _ => [],
    cash := 10,
    finalizeTrades := false }

/-- Concrete run for C5's witness: the strategy submits one buy order on
every bar; the order placed on bar 1 is processed by the broker on bar 2. -/
def buyCfg : RunConfig :=
  { closes := [1, 1, 1],
    indicators := [],
    nextLogic := fun _ _ => [1],
    cash := 100,
    finalizeTrades := false }

/-- Translation of the instantiation step of `Backtest.run`: the strategy is
constructed — running `_check_params` on the override mapping — before the
bar loop, so a bad override raises before any bar is simulated. -/
def runWithParams (inst : String → Option ℚ) (params : List (String × ℚ))
    (cfg : RunConfig) : Except String RunResult :=
  (checkParams inst params).map (fun _ => runBacktest cfg)

/-- Declared attributes of a concrete strategy for C6's witness: a single
parameter `n1` with class-level default 1. -/
def demoInst : String → Option ℚ := fun k => if k = "n1" then some 1 else none

/-- Minimal run inputs for C6's witness. -/
def paramCfg : RunConfig :=
  { closes := [], indicators := [], nextLogic := fun _ _ => [], cash := 0,
    finalizeTrades := false }

/-- Concrete aborting run for C2: the strategy sells one unit short on bar
1; the price jump on bar 3 sends equity to −20, raising the out-of-money
signal.  Bars 1 and 2 record equity 10; bar 3 and the tail stay NaN. -/
def oomCfg : RunConfig :=
  { closes := [10, 10, 10, 40],
    indicators := [],
    nextLogic := fun i _ => if i = 1 then [-1] else [],
    cash := 10,
    finalizeTrades := false }

/-- Concrete normal run for C4's witness with `finalize_trades=True`: one
buy on bar 1 fills on bar 2 and is still open at the end of the data. -/
def finCfg : RunConfig :=
  { closes := [1, 1, 1],
    indicators := [],
    nextLogic := fun i _ => if i = 1 then [1] else [],
    cash := 10,
    finalizeTrades := true }

/-- Same run with `finalize_trades=False` for the warning branch. -/
def noFinCfg : RunConfig :=
  { closes := [1, 1, 1],
    indicators := [],
    nextLogic := fun i _ => if i = 1 then [1] else [],
    cash := 10,
    finalizeTrades := false }

/-- Independent copy of the run inputs for C8's witness. -/
def detCfg : RunConfig :=
  { closes := [1, 2],
    indicators := [],
    nextLogic := fun _ _ => [1],
    cash := 5,
    finalizeTrades := true }

/-- Translation of the `grid_frac` expression of `_optimize_grid`:
`1 if max_tries is None else max_tries if 0 < max_tries <= 1 else
max_tries / _grid_size()`. -/
def gridFrac (maxTries : Option ℚ) (gridSize : ℚ) : ℚ :=
  match maxTries with
  | none => 1
  | some m => if 0 < m ∧ m ≤ 1 then m else m / gridSize

/-- Translation of the `param_combos` comprehension of `_optimize_grid`: a
combination is kept when it passes the constraint and the next uniform
draw is at most `grid_frac` (`rand()` is consumed only for combinations
that pass the constraint, by Python `and` short-circuiting).  `rs` is the
stream of uniform draws, `k` the index of the next draw. -/
def sampleCombos {α : Type} (c : α → Bool) (frac : ℚ) :
    List α → (ℕ → ℚ) → ℕ → List α
  | [], _, _ => []
  | p :: ps, rs, k =>
      if c p then
        (if rs k ≤ frac then [p] else []) ++ sampleCombos c frac ps rs (k + 1)
      else sampleCombos c frac ps rs k

/-- Translation of the worker filter in `Backtest._mp_task`: a run's stats
enter the results batch only when `stats['# Trades']` is truthy (nonzero);
otherwise the worker reports `None` for that combination. -/
def mpTaskCell {α : Type} (runF : α → Stats) (p : α) : Option Stats :=
  if (runF p).numTrades ≠ 0 then some (runF p) else none

/-- Translation of the heatmap fill in `_optimize_grid`: a combination's
cell holds `maximize(stats)` when the worker returned stats, else stays
NaN (`none`). -/
def gridHeatmap {α : Type} (runF : α → Stats) (maximize : Stats → ℚ) (combos : List α) :
    List (α × Option ℚ) :=
  combos.map (fun p => (p, (mpTaskCell runF p).map maximize))

/-- Translation of pandas `idxmax(skipna=True)` over the heatmap: the first
index attaining the maximal non-NaN value. -/
def idxmaxCell {α : Type} : List (α × Option ℚ) → Option (α × ℚ)
  | [] => none
  | (_, none) :: rest => idxmaxCell rest
  | (p, some v) :: rest =>
      match idxmaxCell rest with
      | none => some (p, v)
      | some (q, w) => if v < w then some (q, w) else some (p, v)

/-- Translation of the final selection of `_optimize_grid`: when every
heatmap cell is NaN (`pd.isnull(heatmap).all()`), re-run the first sampled
combination (`param_combos[0]`); otherwise re-run the argmax. -/
def gridSelect {α : Type} (runF : α → Stats) (maximize : Stats → ℚ) (combos : List α) :
    Option Stats :=
  if (gridHeatmap runF maximize combos).all (fun pr => pr.2.isNone) then
    combos.head?.map runF
  else (idxmaxCell (gridHeatmap runF maximize combos)).map (fun qw => runF qw.1)

/-- Concrete run function for C9's witness: every combination reports zero
trades. -/
def zeroStatsRun : ℕ → Stats := fun p => ⟨0, (p : ℤ)⟩

/-! ## Theorems -/

/-- C7: `buy`/`sell` accept a size exactly when it is a fraction strictly
between 0 and 1 or a whole number ≥ 1 (so 0, negatives and non-integers
above 1 are rejected before any order is submitted); the default size
sentinel lies strictly between 0 and 1; `buy` submits the size unchanged
and `sell` submits its negation. -/
theorem claim_C7_size_validation :
    (∀ s : ℚ, (∃ o, buy s = Except.ok o) ↔ ((0 < s ∧ s < 1) ∨ (s.den = 1 ∧ 1 ≤ s)))
    ∧ (∀ s o, buy s = Except.ok o → o = s)
    ∧ (∀ s o, sell s = Except.ok o → o = -s)
    ∧ (0 < FULL_EQUITY ∧ FULL_EQUITY < 1) := by
  refine ⟨fun s => ?_, fun s o h => ?_, fun s o h => ?_, by norm_num [FULL_EQUITY]⟩
  · unfold buy sizeOK
    by_cases hc : (0 < s ∧ s < 1) ∨ (s.den = 1 ∧ 1 ≤ s)
    · simp [hc]
    · simp [hc]
  · unfold buy at h
    by_cases hc : sizeOK s = true
    · simpa [hc] using h.symm
    · simp [hc] at h
  · unfold sell at h
    by_cases hc : sizeOK s = true
    · simpa [hc] using h.symm
    · simp [hc] at h

/-- Witness for C7 at concrete sizes: 1/2 is accepted. -/
theorem claim_C7_size_validation_witness :
    ∃ o, buy (1 / 2 : ℚ) = Except.ok o :=
  (claim_C7_size_validation.1 (1 / 2)).mpr (Or.inl (by norm_num))

/-- C10: `cancel()` on the pending-orders snapshot cancels exactly the
non-contingent orders: each order without a parent trade ends up Cancelled
(with its other fields untouched), and each contingent order is left
completely unchanged. -/
theorem claim_C10_cancel_non_contingent (os : List MOrder) (i : ℕ) (h : i < os.length) :
    (ordersCancel os).get? i =
      some (if (os.get ⟨i, h⟩).hasParentTrade then os.get ⟨i, h⟩
            else { os.get ⟨i, h⟩ with state := OrderState.cancelledState }) := by
  unfold ordersCancel
  rw [List.get?_map]
  rw [List.get?_eq_get h]
  unfold MOrder.isContingent MOrder.cancel
  by_cases hp : (os.get ⟨i, h⟩).hasParentTrade
  · simp [hp]
  · simp [hp]

/-- Witness for C10 on a two-order snapshot: the non-contingent order is
cancelled, the contingent one untouched. -/
theorem claim_C10_cancel_non_contingent_witness :
    (ordersCancel [⟨2, false, OrderState.pendingState⟩, ⟨3, true, OrderState.pendingState⟩]).get? 0 =
      some ⟨2, false, OrderState.cancelledState⟩
    ∧ (ordersCancel [⟨2, false, OrderState.pendingState⟩,
        ⟨3, true, OrderState.pendingState⟩]).get? 1 =
      some ⟨3, true, OrderState.pendingState⟩ := by
  constructor
  · exact claim_C10_cancel_non_contingent
      [⟨2, false, OrderState.pendingState⟩, ⟨3, true, OrderState.pendingState⟩] 0 (by decide)
  · exact claim_C10_cancel_non_contingent
      [⟨2, false, OrderState.pendingState⟩, ⟨3, true, OrderState.pendingState⟩] 1 (by decide)

/-- Helper: `checkParams` preserves the set of defined attributes along the
fold, so an undeclared key fails no matter where it sits in the mapping. -/
theorem checkParams_error_of_bad (ps : List (String × ℚ)) :
    ∀ inst : String → Option ℚ, (∃ p ∈ ps, inst p.1 = none) →
      ∃ e, checkParams inst ps = Except.error e := by
  induction ps with
  | nil => intro inst h; rcases h with ⟨p, hp, _⟩; cases hp
  | cons q ps ih =>
      intro inst h
      rcases h with ⟨p, hp, hnone⟩
      by_cases hq : (inst q.1).isSome
      · rcases List.mem_cons.1 hp with rfl | hmem
        · rw [hnone] at hq; simp at hq
        · have h2 : ∃ p ∈ ps, (fun k' => if k' = q.1 then some q.2 else inst k') p.1 = none := by
            refine ⟨p, hmem, ?_⟩
            by_cases he : p.1 = q.1
            · exfalso; rw [he] at hnone; rw [hnone] at hq; simp at hq
            · simp only []
              rw [if_neg he]
              exact hnone
          rcases ih (fun k' => if k' = q.1 then some q.2 else inst k') h2 with ⟨e, he⟩
          exact ⟨e, by simp [checkParams, hq, he]⟩
      · exact ⟨q.1, by simp [checkParams, hq]⟩

/-- Helper: when every override key is a declared attribute and the keys are
distinct (as in a Python `dict`), the fold succeeds, each override value is
assigned, and attributes outside the mapping are untouched. -/
theorem checkParams_ok_of_good (ps : List (String × ℚ)) :
    ∀ inst : String → Option ℚ, (∀ p ∈ ps, (inst p.1).isSome) →
      (ps.map Prod.fst).Nodup →
      ∃ inst', checkParams inst ps = Except.ok inst' ∧
        (∀ p ∈ ps, inst' p.1 = some p.2) ∧
        (∀ k, (∀ p ∈ ps, p.1 ≠ k) → inst' k = inst k) := by
  induction ps with
  | nil => intro inst _ _; exact ⟨inst, rfl, by simp, fun k _ => rfl⟩
  | cons q ps ih =>
      intro inst h hnd
      rw [List.map_cons] at hnd
      have hq : (inst q.1).isSome := h q (List.mem_cons_self q ps)
      have hnotin : q.1 ∉ ps.map Prod.fst := (List.nodup_cons.1 hnd).1
      have hnd' : (ps.map Prod.fst).Nodup := (List.nodup_cons.1 hnd).2
      set inst1 : String → Option ℚ := fun k' => if k' = q.1 then some q.2 else inst k'
        with hinst1
      have h1 : ∀ p ∈ ps, (inst1 p.1).isSome := by
        intro p hp
        by_cases he : p.1 = q.1
        · simp [hinst1, he]
        · simpa [hinst1, he] using h p (List.mem_cons_of_mem q hp)
      rcases ih inst1 h1 hnd' with ⟨inst', hok, hassign, hframe⟩
      refine ⟨inst', by simp [checkParams, hq, hinst1, hok], ?_, ?_⟩
      · intro p hp
        rcases List.mem_cons.1 hp with rfl | hmem
        · have hnone : ∀ r ∈ ps, r.1 ≠ p.1 := by
            intro r hr he
            exact hnotin (by simpa [he] using List.mem_map_of_mem Prod.fst hr)
          have := hframe p.1 hnone
          rw [this]
          simp [hinst1]
        · exact hassign p hmem
      · intro k hk
        have hk1 : ∀ p ∈ ps, p.1 ≠ k := fun p hp => hk p (List.mem_cons_of_mem q hp)
        rw [hframe k hk1]
        have hqk : q.1 ≠ k := hk q (List.mem_cons_self q ps)
        simp [hinst1, Ne.symm hqk]

theorem brokerNext_pending (i : ℕ) (price : ℤ) (b : Broker) :
    (brokerNext i price b).1.pending = [] := by
  unfold brokerNext
  dsimp only
  split <;> rfl

theorem brokerNext_log (i : ℕ) (price : ℤ) (b : Broker) :
    (brokerNext i price b).1.processedLog =
      b.processedLog ++ b.pending.map (fun o => (i, o.submitBar)) := by
  unfold brokerNext
  dsimp only
  split <;> rfl

theorem brokerNext_trades (i : ℕ) (price : ℤ) (b : Broker) :
    (brokerNext i price b).1.trades =
      b.trades.filter (fun t => !t.closeRequested) ++
        b.pending.map (fun o => (⟨o.size, i, price, false⟩ : MTrade)) := by
  unfold brokerNext
  dsimp only
  split <;> rfl

theorem brokerNext_closed (i : ℕ) (price : ℤ) (b : Broker) :
    (brokerNext i price b).1.closedTrades =
      b.closedTrades ++ (b.trades.filter (fun t => t.closeRequested)).map
        (fun t => (⟨t.size, t.entryBar, t.entryPrice, i, price⟩ : ClosedTrade)) := by
  unfold brokerNext
  dsimp only
  split <;> rfl

theorem doBar_aborted (cfg : RunConfig) (s : LoopState) (i : ℕ) (h : s.aborted = true) :
    doBar cfg s i = s := by
  simp [doBar, h]

theorem foldl_doBar_aborted (cfg : RunConfig) (l : List ℕ) :
    ∀ s : LoopState, s.aborted = true → l.foldl (doBar cfg) s = s := by
  induction l with
  | nil => intro s _; rfl
  | cons i t ih =>
      intro s h
      rw [List.foldl_cons, doBar_aborted cfg s i h]
      exact ih s h

theorem doBar_oom (cfg : RunConfig) (s : LoopState) (i : ℕ) (b : Broker)
    (h : s.aborted = false)
    (hbn : brokerNext i (cfg.closes.getD i 0) s.broker = (b, true)) :
    doBar cfg s i =
      { broker := b, trace := s.trace ++ [Phase.reveal i, Phase.tick i], aborted := true } := by
  unfold doBar
  rw [h, hbn]
  rfl

theorem doBar_ok (cfg : RunConfig) (s : LoopState) (i : ℕ) (b : Broker)
    (h : s.aborted = false)
    (hbn : brokerNext i (cfg.closes.getD i 0) s.broker = (b, false)) :
    doBar cfg s i =
      { broker := { b with pending := b.pending ++
          (cfg.nextLogic i (stratView cfg i)).map (fun z => ⟨z, i⟩) },
        trace := s.trace ++ [Phase.reveal i, Phase.tick i, Phase.snext i],
        aborted := false } := by
  unfold doBar
  rw [h, hbn]
  rfl

/-- Shape of the loop trace: the processed bars split into fully processed
ones (reveal, tick, strategy-next in that order) followed, if the broker
raised, by a final reveal-and-tick pair for the aborting bar. -/
theorem loop_trace_shape (cfg : RunConfig) :
    ∀ (l : List ℕ) (s : LoopState), s.aborted = false →
      ∃ l1 l2, l = l1 ++ l2 ∧
        (((l.foldl (doBar cfg) s).trace = s.trace ++ l1.flatMap barBlock ∧
          (l.foldl (doBar cfg) s).aborted = false ∧ l2 = []) ∨
         (∃ i l2', l2 = i :: l2' ∧
          (l.foldl (doBar cfg) s).trace =
            s.trace ++ l1.flatMap barBlock ++ [Phase.reveal i, Phase.tick i] ∧
          (l.foldl (doBar cfg) s).aborted = true)) := by
  intro l
  induction l with
  | nil =>
      intro s h
      exact ⟨[], [], rfl, Or.inl ⟨by simp, h, rfl⟩⟩
  | cons i t ih =>
      intro s h
      rcases hbn : brokerNext i (cfg.closes.getD i 0) s.broker with ⟨b, oom⟩
      cases oom with
      | false =>
          have hstep : doBar cfg s i =
              { broker := { b with pending := b.pending ++
                  (cfg.nextLogic i (stratView cfg i)).map (fun z => ⟨z, i⟩) },
                trace := s.trace ++ [Phase.reveal i, Phase.tick i, Phase.snext i],
                aborted := false } := doBar_ok cfg s i b h hbn
          rcases ih (doBar cfg s i) (by rw [hstep]) with ⟨l1, l2, heq, hcase⟩
          refine ⟨i :: l1, l2, by rw [heq]; rfl, ?_⟩
          rcases hcase with ⟨htr, hab, hl2⟩ | ⟨j, l2', hl2, htr, hab⟩
          · refine Or.inl ⟨?_, by simpa using hab, hl2⟩
            rw [List.foldl_cons] at *
            rw [htr, hstep]
            simp [barBlock, List.flatMap_cons]
          · refine Or.inr ⟨j, l2', hl2, ?_, by simpa using hab⟩
            rw [List.foldl_cons] at *
            rw [htr, hstep]
            simp [barBlock, List.flatMap_cons]
      | true =>
          have hstep : doBar cfg s i =
              { broker := b, trace := s.trace ++ [Phase.reveal i, Phase.tick i],
                aborted := true } := doBar_oom cfg s i b h hbn
          refine ⟨[], i :: t, rfl, Or.inr ⟨i, t, rfl, ?_, ?_⟩⟩
          · rw [List.foldl_cons, hstep, foldl_doBar_aborted cfg t _ rfl]
            simp
          · rw [List.foldl_cons, hstep, foldl_doBar_aborted cfg t _ rfl]

/-- Orders invariant of the loop: all pending orders were submitted before
the next bar to process, and every processed order was submitted strictly
before the bar that processed it. -/
theorem loop_orders_inv (cfg : RunConfig) :
    ∀ (n st : ℕ) (s : LoopState),
      (∀ o ∈ s.broker.pending, o.submitBar < st) →
      (∀ pr ∈ s.broker.processedLog, pr.2 < pr.1) →
      (∀ o ∈ ((List.range' st n).foldl (doBar cfg) s).broker.pending,
        o.submitBar < st + n) ∧
      (∀ pr ∈ ((List.range' st n).foldl (doBar cfg) s).broker.processedLog,
        pr.2 < pr.1) := by
  intro n
  induction n with
  | zero =>
      intro st s hp hl
      simp only [List.range'_zero, List.foldl_nil, Nat.add_zero]
      exact ⟨hp, hl⟩
  | succ n ih =>
      intro st s hp hl
      rw [List.range'_succ, List.foldl_cons]
      have hstep :
          (∀ o ∈ (doBar cfg s st).broker.pending, o.submitBar < st + 1) ∧
          (∀ pr ∈ (doBar cfg s st).broker.processedLog, pr.2 < pr.1) := by
        by_cases hab : s.aborted = true
        · rw [doBar_aborted cfg s st hab]
          exact ⟨fun o ho => Nat.lt_succ_of_lt (hp o ho), hl⟩
        · have hab' : s.aborted = false := by simpa using hab
          rcases hbn : brokerNext st (cfg.closes.getD st 0) s.broker with ⟨b, oom⟩
          have hbp : b.pending = [] := by
            have := brokerNext_pending st (cfg.closes.getD st 0) s.broker
            rw [hbn] at this; exact this
          have hbl : b.processedLog =
              s.broker.processedLog ++ s.broker.pending.map (fun o => (st, o.submitBar)) := by
            have := brokerNext_log st (cfg.closes.getD st 0) s.broker
            rw [hbn] at this; exact this
          have hlog : ∀ pr ∈ b.processedLog, pr.2 < pr.1 := by
            intro pr hpr
            rw [hbl] at hpr
            rcases List.mem_append.1 hpr with hmem | hmem
            · exact hl pr hmem
            · rcases List.mem_map.1 hmem with ⟨o, ho, rfl⟩
              exact hp o ho
          cases oom with
          | false =>
              have hstep' : doBar cfg s st =
                  { broker := { b with pending := b.pending ++
                      (cfg.nextLogic st (stratView cfg st)).map (fun z => ⟨z, st⟩) },
                    trace := s.trace ++ [Phase.reveal st, Phase.tick st, Phase.snext st],
                    aborted := false } := doBar_ok cfg s st b hab' hbn
              rw [hstep']
              refine ⟨?_, hlog⟩
              intro o ho
              simp only [hbp, List.nil_append] at ho
              rcases List.mem_map.1 ho with ⟨z, _, rfl⟩
              exact Nat.lt_succ_self st
          | true =>
              have hstep' : doBar cfg s st =
                  { broker := b, trace := s.trace ++ [Phase.reveal st, Phase.tick st],
                    aborted := true } := doBar_oom cfg s st b hab' hbn
              rw [hstep']
              refine ⟨?_, hlog⟩
              intro o ho
              rw [hbp] at ho
              cases ho
      have := ih (st + 1) (doBar cfg s st) hstep.1 hstep.2
      rw [Nat.add_assoc, Nat.add_comm 1 n] at this
      exact this

theorem leadingNaNs_le_warmup (inds : List (List (Option ℚ))) (ind : List (Option ℚ))
    (h : ind ∈ inds) : leadingNaNs ind ≤ warmupNBars inds := by
  unfold warmupNBars
  induction inds with
  | nil => cases h
  | cons a t ih =>
      rw [List.map_cons, List.foldr_cons]
      rcases List.mem_cons.1 h with rfl | hm
      · exact le_max_left _ _
      · exact le_trans (ih hm) (le_max_right _ _)

theorem getLast?_take_succ {α : Type} : ∀ (xs : List α) (k : ℕ), k < xs.length →
    (xs.take (k + 1)).getLast? = xs.get? k
  | [], k, h => by simp at h
  | x :: xs, 0, _ => by simp
  | x :: xs, k + 1, h => by
      have h' : k < xs.length := by simpa using h
      rw [List.take_succ_cons]
      rcases hx : xs.take (k + 1) with _ | ⟨y, ys⟩
      · exfalso
        have hp : 0 < (xs.take (k + 1)).length := by rw [List.length_take]; omega
        rw [hx] at hp
        simp at hp
      · rw [List.getLast?_cons_cons, ← hx, getLast?_take_succ xs k h']
        rfl

/-- C1: the bar loop starts at `start = 1 + warmup_nbars` where `warmup_nbars`
is the maximum count of leading NaNs over the declared indicators, and —
assuming each indicator only has NaNs as a leading prefix — on the first
`next()` call the most recent visible value of every declared indicator is
finite. -/
theorem claim_C1_warmup_start (cfg : RunConfig)
    (hlen : ∀ ind ∈ cfg.indicators, ind.length = cfg.closes.length)
    (hpre : ∀ ind ∈ cfg.indicators, ∀ j, leadingNaNs ind ≤ j → j < ind.length →
      (ind.getD j none).isSome = true)
    (hstart : startBar cfg < cfg.closes.length) :
    startBar cfg = 1 + warmupNBars cfg.indicators ∧
    (runBacktest cfg).trace.head? = some (Phase.reveal (startBar cfg)) ∧
    ∀ sl ∈ (stratView cfg (startBar cfg)).indicators, ∃ v, sl.getLast? = some (some v) := by
  refine ⟨rfl, ?_, ?_⟩
  · -- the first phase executed is the reveal of bar `start`
    have htr : (runBacktest cfg).trace = (runLoop cfg).trace := rfl
    rw [htr]
    unfold runLoop
    obtain ⟨m, hm⟩ : ∃ m, cfg.closes.length - startBar cfg = m + 1 :=
      ⟨cfg.closes.length - startBar cfg - 1, by omega⟩
    rw [hm, List.range'_succ]
    rcases loop_trace_shape cfg (startBar cfg :: List.range' (startBar cfg + 1) m)
      { broker := initBroker cfg, trace := [], aborted := false } rfl with
      ⟨l1, l2, heq, hcase⟩
    rcases hcase with ⟨htrace, _, hl2⟩ | ⟨i, l2', hl2, htrace, _⟩
    · subst hl2
      rw [List.append_nil] at heq
      rw [htrace, ← heq]
      simp [barBlock]
    · subst hl2
      cases l1 with
      | nil =>
          have hi : i = startBar cfg := by
            have := heq
            simp at this
            exact this.1.symm
          rw [htrace, hi]
          simp
      | cons j l1' =>
          have hj : j = startBar cfg := by
            have := heq
            simp at this
            exact this.1.symm
          rw [htrace, hj]
          simp [barBlock]
  · -- last visible indicator value on the first `next()` call is finite
    intro sl hsl
    rcases List.mem_map.1 hsl with ⟨ind, hind, rfl⟩
    have hlt : startBar cfg < ind.length := by
      rw [hlen ind hind]; exact hstart
    have hle : leadingNaNs ind ≤ startBar cfg := by
      have := leadingNaNs_le_warmup cfg.indicators ind hind
      unfold startBar
      omega
    have hs := hpre ind hind (startBar cfg) hle hlt
    rw [getLast?_take_succ ind (startBar cfg) hlt]
    have hget : ind.get? (startBar cfg) = some (ind.get ⟨startBar cfg, hlt⟩) :=
      List.get?_eq_get hlt
    rw [hget]
    have : (ind.getD (startBar cfg) none) = ind.get ⟨startBar cfg, hlt⟩ := by
      unfold List.getD
      rw [hget]
      rfl
    rw [this] at hs
    rcases Option.isSome_iff_exists.1 hs with ⟨v, hv⟩
    exact ⟨v, by rw [hv]⟩

/-- Witness for C1 on `warmCfg`. -/
theorem claim_C1_warmup_start_witness :
    (runBacktest warmCfg).trace.head? = some (Phase.reveal (startBar warmCfg)) ∧
    ∀ sl ∈ (stratView warmCfg (startBar warmCfg)).indicators,
      ∃ v, sl.getLast? = some (some v) := by
  have h := claim_C1_warmup_start warmCfg ?hlen ?hpre ?hstart
  case hlen => intro ind hind; fin_cases hind <;> rfl
  case hpre =>
    intro ind hind j hj hjl
    fin_cases hind
    simp only [warmCfg, List.length_cons, List.length_nil] at hjl
    norm_num [leadingNaNs] at hj
    interval_cases j <;> decide
  case hstart => decide
  exact ⟨h.2.1, h.2.2⟩

/-- C5: the loop trace consists, bar by bar in order, of reveal → broker
tick → strategy next (the last block truncated after the tick when the
broker raised out-of-money), and every order the broker processed during
the loop was submitted on a strictly earlier bar — broker processing never
observes orders submitted in the same bar's `next()`. -/
theorem claim_C5_phase_order (cfg : RunConfig) :
    (∃ l1 rest,
      List.range' (startBar cfg) (cfg.closes.length - startBar cfg) = l1 ++ rest ∧
      (((runBacktest cfg).trace = l1.flatMap barBlock ∧ rest = []) ∨
       (∃ i rest', rest = i :: rest' ∧
        (runBacktest cfg).trace = l1.flatMap barBlock ++ [Phase.reveal i, Phase.tick i]))) ∧
    (∀ pr ∈ (runLoop cfg).broker.processedLog, pr.2 < pr.1) := by
  constructor
  · have htr : (runBacktest cfg).trace = (runLoop cfg).trace := rfl
    rcases loop_trace_shape cfg
      (List.range' (startBar cfg) (cfg.closes.length - startBar cfg))
      { broker := initBroker cfg, trace := [], aborted := false } rfl with
      ⟨l1, l2, heq, hcase⟩
    refine ⟨l1, l2, heq, ?_⟩
    rcases hcase with ⟨htrace, _, hl2⟩ | ⟨i, l2', hl2, htrace, _⟩
    · refine Or.inl ⟨?_, hl2⟩
      rw [htr]
      unfold runLoop
      rw [htrace]
      simp
    · refine Or.inr ⟨i, l2', hl2, ?_⟩
      rw [htr]
      unfold runLoop
      rw [htrace]
      simp
  · have h := loop_orders_inv cfg (cfg.closes.length - startBar cfg) (startBar cfg)
      { broker := initBroker cfg, trace := [], aborted := false }
      (by intro o ho; simp [initBroker] at ho)
      (by intro pr hpr; simp [initBroker] at hpr)
    exact h.2

/-- Witness for C5 on `buyCfg`: the single processed order was submitted on
bar 1 and processed on bar 2. -/
theorem claim_C5_phase_order_witness :
    (runLoop buyCfg).broker.processedLog = [(2, 1)] ∧ ((2, 1) : ℕ × ℕ).2 < ((2, 1) : ℕ × ℕ).1 :=
  ⟨by decide, (claim_C5_phase_order buyCfg).2 (2, 1) (by decide)⟩

/-- C6: an override key that is not a declared attribute makes strategy
instantiation fail with a configuration error before any bar is simulated
(no `RunResult` is produced); when all keys are declared (keys of a Python
`dict` are distinct), instantiation succeeds and each override value is
assigned to the instance. -/
theorem claim_C6_param_overrides (inst : String → Option ℚ) (params : List (String × ℚ))
    (cfg : RunConfig) :
    ((∃ p ∈ params, inst p.1 = none) →
      ∃ e, runWithParams inst params cfg = Except.error e) ∧
    ((∀ p ∈ params, (inst p.1).isSome) → (params.map Prod.fst).Nodup →
      ∃ inst', checkParams inst params = Except.ok inst' ∧
        ∀ p ∈ params, inst' p.1 = some p.2) := by
  constructor
  · intro h
    rcases checkParams_error_of_bad params inst h with ⟨e, he⟩
    refine ⟨e, ?_⟩
    unfold runWithParams
    rw [he]
    rfl
  · intro h hnd
    rcases checkParams_ok_of_good params inst h hnd with ⟨inst', hok, hassign, _⟩
    exact ⟨inst', hok, hassign⟩

/-- Witness for C6: overriding the undeclared `bad` fails before the run;
overriding the declared `n1` assigns the value. -/
theorem claim_C6_param_overrides_witness :
    (∃ e, runWithParams demoInst [("bad", 5)] paramCfg = Except.error e) ∧
    (∃ inst', checkParams demoInst [("n1", 7)] = Except.ok inst' ∧
      ∀ p ∈ [(("n1" : String), (7 : ℚ))], inst' p.1 = some p.2) := by
  constructor
  · exact (claim_C6_param_overrides demoInst [("bad", 5)] paramCfg).1
      ⟨("bad", 5), List.mem_singleton.2 rfl, by simp [demoInst]⟩
  · exact (claim_C6_param_overrides demoInst [("n1", 7)] paramCfg).2
      (by intro p hp; rw [List.mem_singleton.1 hp]; simp [demoInst]) (by simp)

theorem bfill_length : ∀ xs : List (Option ℤ), (bfill xs).length = xs.length
  | [] => rfl
  | _ :: xs => by
      unfold bfill
      simp [bfill_length xs]

theorem bfill_all_none : ∀ xs : List (Option ℤ), (∀ y ∈ xs, y = none) → bfill xs = xs
  | [], _ => rfl
  | x :: xs, h => by
      have hx : x = none := h x (List.mem_cons_self x xs)
      have ht : bfill xs = xs := bfill_all_none xs (fun y hy => h y (List.mem_cons_of_mem x hy))
      unfold bfill
      rw [ht, hx]
      cases xs with
      | nil => rfl
      | cons z zs =>
          have hz : z = none := h z (List.mem_cons_of_mem x (List.mem_cons_self z zs))
          simp [hz]

theorem bfill_append_none (l2 : List (Option ℤ)) (h2 : ∀ y ∈ l2, y = none) :
    ∀ l1, bfill (l1 ++ l2) = bfill l1 ++ l2
  | [] => by simpa using bfill_all_none l2 h2
  | x :: l1 => by
      have ih := bfill_append_none l2 h2 l1
      show bfill (x :: (l1 ++ l2)) = bfill (x :: l1) ++ l2
      unfold bfill
      rw [ih]
      cases x with
      | some v => rfl
      | none =>
          cases hb : bfill l1 with
          | nil =>
              have hl1 : l1 = [] := by
                have := bfill_length l1
                rw [hb] at this
                exact List.eq_nil_of_length_eq_zero this.symm
              subst hl1
              cases l2 with
              | nil => rfl
              | cons z zs =>
                  have hz : z = none := h2 z (List.mem_cons_self z zs)
                  simp [bfill, hz]
          | cons z zs => simp

/-- Entries of the filled equity curve lying in an all-NaN suffix of the
record come out as the broker's cash, not as any recorded value. -/
theorem fillna_tail (xs : List (Option ℤ)) (c : ℤ) (j : ℕ) (hj : j < xs.length)
    (hnone : ∀ k, j ≤ k → k < xs.length → xs.getD k none = none) :
    (fillnaWith c (bfill xs)).getD j 0 = c := by
  have hsplit : xs = xs.take j ++ xs.drop j := (List.take_append_drop j xs).symm
  have hdnone : ∀ y ∈ xs.drop j, y = none := by
    intro y hy
    rcases List.mem_iff_get?.1 hy with ⟨m, hm⟩
    rw [List.get?_drop] at hm
    have hk : j + m < xs.length := by
      rcases List.get?_eq_some.1 hm with ⟨hlt, _⟩
      exact hlt
    have hn := hnone (j + m) (Nat.le_add_right j m) hk
    unfold List.getD at hn
    rw [hm] at hn
    simpa using hn
  have hbf : bfill xs = bfill (xs.take j) ++ xs.drop j := by
    conv_lhs => rw [hsplit]
    exact bfill_append_none (xs.drop j) hdnone (xs.take j)
  have hlen : (bfill (xs.take j)).length = j := by
    rw [bfill_length, List.length_take]
    omega
  have hget : (bfill xs).get? j = some none := by
    rw [hbf, List.get?_append_right (by omega), hlen, Nat.sub_self, List.get?_drop,
      Nat.add_zero]
    have hjx : xs.get? j = some (xs.get ⟨j, hj⟩) := List.get?_eq_get hj
    rw [hjx]
    have := hnone j le_rfl hj
    unfold List.getD at this
    rw [hjx] at this
    simpa using this
  unfold fillnaWith List.getD
  rw [List.get?_map, hget]
  rfl

/-- Counterexample to C2 as stated: in the aborted run `oomCfg` the last
recorded equity value is 10 (bar 2), yet the equity-series entry after the
last recorded bar is 20 — `bfill()` fills *backwards* from later values,
so the all-NaN tail is left for `fillna(broker._cash)`, which writes the
broker's cash, not the last recorded equity. -/
theorem claim_C2_counterexample :
    (runBacktest oomCfg).aborted = true ∧
    (runBacktest oomCfg).broker.equityRec = [none, some 10, some 10, none] ∧
    (runBacktest oomCfg).equityCurve = [10, 10, 10, 20] ∧
    ¬((runBacktest oomCfg).equityCurve.getD 3 0 = 10) := by decide

/-- C2 (amended): when the broker tick raises the out-of-money signal the
loop catches it and terminates gracefully (the trace ends at a broker
tick), open positions are not force-closed (the broker state is exactly
the loop's final state), statistics are still computed over what occurred,
and every equity-series entry lying in the unrecorded suffix is filled
with the broker's cash balance (interior and leading NaNs are back-filled
from the *next* recorded value). -/
theorem claim_C2_amended_oom (cfg : RunConfig)
    (hab : (runBacktest cfg).aborted = true) :
    (runBacktest cfg).broker = (runLoop cfg).broker ∧
    (∃ i, (runBacktest cfg).trace.getLast? = some (Phase.tick i)) ∧
    (runBacktest cfg).stats =
      computeStats (runBacktest cfg).broker.closedTrades (runBacktest cfg).equityCurve ∧
    (∀ j, j < (runBacktest cfg).broker.equityRec.length →
      (∀ k, j ≤ k → k < (runBacktest cfg).broker.equityRec.length →
        (runBacktest cfg).broker.equityRec.getD k none = none) →
      (runBacktest cfg).equityCurve.getD j 0 = (runBacktest cfg).broker.cash) := by
  have hab' : (runLoop cfg).aborted = true := hab
  have hfb : finalBroker cfg = (runLoop cfg).broker := by
    unfold finalBroker
    rw [hab']
    rfl
  have hbr : (runBacktest cfg).broker = (runLoop cfg).broker := hfb
  refine ⟨hbr, ?_, rfl, ?_⟩
  · -- the trace ends with a broker tick
    rcases loop_trace_shape cfg
      (List.range' (startBar cfg) (cfg.closes.length - startBar cfg))
      { broker := initBroker cfg, trace := [], aborted := false } rfl with
      ⟨l1, l2, _, hcase⟩
    rcases hcase with ⟨_, hab2, _⟩ | ⟨i, l2', _, htrace, _⟩
    · exfalso
      have : (runLoop cfg).aborted = false := hab2
      rw [hab'] at this
      cases this
    · refine ⟨i, ?_⟩
      have htr : (runBacktest cfg).trace = (runLoop cfg).trace := rfl
      rw [htr]
      unfold runLoop
      rw [htrace]
      rw [show ([] : List Phase) ++ l1.flatMap barBlock ++ [Phase.reveal i, Phase.tick i] =
        (([] : List Phase) ++ l1.flatMap barBlock ++ [Phase.reveal i]) ++ [Phase.tick i] by
          simp]
      exact List.getLast?_concat _
  · intro j hjl hnone
    rw [hbr] at hjl hnone ⊢
    have hcurve : (runBacktest cfg).equityCurve =
        fillnaWith ((runLoop cfg).broker).cash (bfill ((runLoop cfg).broker).equityRec) := by
      show fillnaWith (finalBroker cfg).cash (bfill (finalBroker cfg).equityRec) = _
      rw [hfb]
    rw [hcurve]
    exact fillna_tail _ _ j hjl hnone

/-- Witness for C2's amended theorem on `oomCfg`: the tail entry at index 3
equals the broker's cash, open trades survive the abort, statistics exist. -/
theorem claim_C2_amended_oom_witness :
    (runBacktest oomCfg).broker = (runLoop oomCfg).broker ∧
    (runBacktest oomCfg).equityCurve.getD 3 0 = (runBacktest oomCfg).broker.cash := by
  have h := claim_C2_amended_oom oomCfg (by decide)
  refine ⟨h.1, ?_⟩
  refine h.2.2.2 3 (by decide) ?_
  intro k h1 h2
  have hk : k = 3 := by
    have : (runBacktest oomCfg).broker.equityRec.length = 4 := by decide
    omega
  subst hk
  decide

theorem runLoop_trades_nil_of_ge (cfg : RunConfig)
    (h : cfg.closes.length ≤ startBar cfg) :
    (runLoop cfg).broker.trades = [] := by
  unfold runLoop
  have h0 : cfg.closes.length - startBar cfg = 0 := by omega
  rw [h0]
  rfl

/-- C4: on normal termination, with `finalize_trades=True` every trade left
open by the loop is closed on the last bar (its closed record, with exit
bar `N−1` and the last close as exit price, lands in the closed set that
the statistics count); with `finalize_trades=False` the closed set and the
open trades are exactly the loop's, and the open-trades warning is
surfaced precisely when at least one trade remains open. -/
theorem claim_C4_finalize (cfg : RunConfig) (hab : (runBacktest cfg).aborted = false) :
    (cfg.finalizeTrades = true →
      (∀ t ∈ (runLoop cfg).broker.trades,
        (⟨t.size, t.entryBar, t.entryPrice, cfg.closes.length - 1,
          cfg.closes.getD (cfg.closes.length - 1) 0⟩ : ClosedTrade) ∈
            (runBacktest cfg).broker.closedTrades) ∧
      (runBacktest cfg).stats.numTrades = (runBacktest cfg).broker.closedTrades.length) ∧
    (cfg.finalizeTrades = false →
      (runBacktest cfg).broker.closedTrades = (runLoop cfg).broker.closedTrades ∧
      (runBacktest cfg).broker.trades = (runLoop cfg).broker.trades ∧
      ((runBacktest cfg).openTradesWarning = true ↔ (runLoop cfg).broker.trades ≠ [])) := by
  have hab' : (runLoop cfg).aborted = false := hab
  constructor
  · intro hf
    have hfb : finalBroker cfg = finalizedBroker cfg := by
      unfold finalBroker
      rw [hab', hf]
      rfl
    refine ⟨?_, rfl⟩
    intro t ht
    by_cases hlt : startBar cfg < cfg.closes.length
    · have hfz : finalizedBroker cfg =
          (brokerNext (cfg.closes.length - 1) (cfg.closes.getD (cfg.closes.length - 1) 0)
            (markAllClosed (runLoop cfg).broker)).1 := by
        unfold finalizedBroker
        rw [if_pos hlt]
      have hbc := brokerNext_closed (cfg.closes.length - 1)
        (cfg.closes.getD (cfg.closes.length - 1) 0) (markAllClosed (runLoop cfg).broker)
      have hshow : (runBacktest cfg).broker.closedTrades =
          (markAllClosed (runLoop cfg).broker).closedTrades ++
            ((markAllClosed (runLoop cfg).broker).trades.filter
              (fun t => t.closeRequested)).map
              (fun t => (⟨t.size, t.entryBar, t.entryPrice, cfg.closes.length - 1,
                cfg.closes.getD (cfg.closes.length - 1) 0⟩ : ClosedTrade)) := by
        show (finalBroker cfg).closedTrades = _
        rw [hfb, hfz, hbc]
      rw [hshow]
      refine List.mem_append_right _ ?_
      have hmark : ({ t with closeRequested := true } : MTrade) ∈
          (markAllClosed (runLoop cfg).broker).trades.filter (fun t => t.closeRequested) := by
        rw [List.mem_filter]
        exact ⟨List.mem_map_of_mem _ ht, rfl⟩
      have := List.mem_map_of_mem
        (fun t : MTrade => (⟨t.size, t.entryBar, t.entryPrice, cfg.closes.length - 1,
          cfg.closes.getD (cfg.closes.length - 1) 0⟩ : ClosedTrade)) hmark
      simpa using this
    · exfalso
      have hnil := runLoop_trades_nil_of_ge cfg (by omega)
      rw [hnil] at ht
      cases ht
  · intro hf
    have hfb : finalBroker cfg = (runLoop cfg).broker := by
      unfold finalBroker
      rw [hab', hf]
      rfl
    refine ⟨by show (finalBroker cfg).closedTrades = _; rw [hfb],
            by show (finalBroker cfg).trades = _; rw [hfb], ?_⟩
    show ((!(runLoop cfg).aborted) && (!cfg.finalizeTrades) &&
      !((runLoop cfg).broker.trades.isEmpty)) = true ↔ (runLoop cfg).broker.trades ≠ []
    rw [hab', hf]
    cases htr : (runLoop cfg).broker.trades with
    | nil => simp
    | cons a l => simp

/-- Witness for C4: on `finCfg` the trade left open by the loop appears in
the closed set with exit on the last bar and is counted by the statistics;
on `noFinCfg` it stays open, is excluded from the closed set, and the
warning is surfaced. -/
theorem claim_C4_finalize_witness :
    ((⟨1, 2, 1, 2, 1⟩ : ClosedTrade) ∈ (runBacktest finCfg).broker.closedTrades ∧
      (runBacktest finCfg).stats.numTrades = (runBacktest finCfg).broker.closedTrades.length) ∧
    ((runBacktest noFinCfg).broker.closedTrades = (runLoop noFinCfg).broker.closedTrades ∧
      (runBacktest noFinCfg).openTradesWarning = true) := by
  constructor
  · have h := (claim_C4_finalize finCfg (by decide)).1 rfl
    refine ⟨?_, h.2⟩
    have hm := h.1 ⟨1, 2, 1, false⟩ (by decide)
    simpa using hm
  · have h := (claim_C4_finalize noFinCfg (by decide)).2 rfl
    exact ⟨h.1, h.2.2.2 (by decide)⟩

/-- C8: `Backtest.run` consumes no randomness, clock or other ambient state
— its result is a function of the data, the strategy (indicators and
`next` logic), the broker parameters and the strategy parameters alone, so
two runs with identical inputs produce identical statistics and equity
curve. -/
theorem claim_C8_deterministic (cfg₁ cfg₂ : RunConfig)
    (h1 : cfg₁.closes = cfg₂.closes) (h2 : cfg₁.indicators = cfg₂.indicators)
    (h3 : cfg₁.nextLogic = cfg₂.nextLogic) (h4 : cfg₁.cash = cfg₂.cash)
    (h5 : cfg₁.finalizeTrades = cfg₂.finalizeTrades) :
    runBacktest cfg₁ = runBacktest cfg₂ ∧
    (runBacktest cfg₁).stats = (runBacktest cfg₂).stats ∧
    (runBacktest cfg₁).equityCurve = (runBacktest cfg₂).equityCurve := by
  obtain ⟨c1, i1, n1, m1, f1⟩ := cfg₁
  obtain ⟨c2, i2, n2, m2, f2⟩ := cfg₂
  simp only at h1 h2 h3 h4 h5
  subst h1; subst h2; subst h3; subst h4; subst h5
  exact ⟨rfl, rfl, rfl⟩

/-- Witness for C8 at `detCfg`. -/
theorem claim_C8_deterministic_witness :
    runBacktest detCfg = runBacktest detCfg ∧
    (runBacktest detCfg).stats = (runBacktest detCfg).stats ∧
    (runBacktest detCfg).equityCurve = (runBacktest detCfg).equityCurve :=
  claim_C8_deterministic detCfg detCfg rfl rfl rfl rfl rfl

/-- Counterexample to C3's integer-cap conjunct: with `max_tries = 2` — an
integer cap ≥ 1, outside (0, 1] — over a full grid of 3 combinations the
retention threshold is 2/3, and draws can let all 3 combinations through:
the number of runs exceeds the "absolute cap". -/
theorem claim_C3_counterexample :
    ((2 : ℚ).den = 1 ∧ (1 : ℚ) ≤ 2) ∧
    gridFrac (some 2) 3 = 2 / 3 ∧
    sampleCombos (fun _ => true) (gridFrac (some 2) 3) ([0, 1, 2] : List ℕ) (fun _ => 0) 0 =
      [0, 1, 2] ∧
    ¬((sampleCombos (fun _ => true) (gridFrac (some 2) 3) ([0, 1, 2] : List ℕ)
        (fun _ => 0) 0).length ≤ 2) := by
  have h1 : gridFrac (some 2) 3 = 2 / 3 := by
    unfold gridFrac
    dsimp only
    rw [if_neg (by norm_num)]
  have hle : ((0 : ℚ) ≤ 2 / 3) := by norm_num
  have h2 : sampleCombos (fun _ => true) (gridFrac (some 2) 3) ([0, 1, 2] : List ℕ)
      (fun _ => 0) 0 = [0, 1, 2] := by
    rw [h1]
    simp [sampleCombos, hle]
  refine ⟨⟨by norm_num, by norm_num⟩, h1, h2, ?_⟩
  rw [h2]
  norm_num

/-- C3 (amended): the retention threshold is `max_tries` itself when
`0 < max_tries ≤ 1` and `max_tries / grid_size` otherwise; each admissible
combination is retained exactly when its uniform draw is at most the
threshold (so the sample is the stated fraction, or the integer cap, only
in expectation — the realized run count may exceed an integer cap, and an
integer `max_tries = 1` keeps the whole admissible grid). -/
theorem claim_C3_amended_subsample {α : Type} (c : α → Bool) (m gs : ℚ)
    (combos : List α) (rs : ℕ → ℚ) :
    (0 < m ∧ m ≤ 1 → gridFrac (some m) gs = m) ∧
    (¬(0 < m ∧ m ≤ 1) → gridFrac (some m) gs = m / gs) ∧
    (∀ frac k, List.Sublist (sampleCombos c frac combos rs k) (combos.filter c)) ∧
    (∀ frac k, (∀ n, rs n ≤ frac) → sampleCombos c frac combos rs k = combos.filter c) ∧
    (∀ frac k, (∀ n, frac < rs n) → sampleCombos c frac combos rs k = []) := by
  refine ⟨fun h => by unfold gridFrac; dsimp only; rw [if_pos h],
          fun h => by unfold gridFrac; dsimp only; rw [if_neg h], ?_, ?_, ?_⟩
  · intro frac
    induction combos with
    | nil => intro k; simp [sampleCombos]
    | cons p ps ih =>
        intro k
        unfold sampleCombos
        by_cases hc : c p = true
        · rw [if_pos hc, List.filter_cons_of_pos hc]
          by_cases hr : rs k ≤ frac
          · rw [if_pos hr]
            exact List.Sublist.cons₂ p (ih (k + 1))
          · rw [if_neg hr]
            exact List.Sublist.cons p (ih (k + 1))
        · rw [if_neg hc, List.filter_cons_of_neg (by simpa using hc)]
          exact ih k
  · intro frac
    induction combos with
    | nil => intro k _; simp [sampleCombos]
    | cons p ps ih =>
        intro k hall
        unfold sampleCombos
        by_cases hc : c p = true
        · rw [if_pos hc, if_pos (hall k), List.filter_cons_of_pos hc, ih (k + 1) hall]
          rfl
        · rw [if_neg hc, List.filter_cons_of_neg (by simpa using hc)]
          exact ih k hall
  · intro frac
    induction combos with
    | nil => intro k _; simp [sampleCombos]
    | cons p ps ih =>
        intro k hall
        unfold sampleCombos
        by_cases hc : c p = true
        · rw [if_pos hc, if_neg (not_le.2 (hall k)), ih (k + 1) hall]
          rfl
        · rw [if_neg hc]
          exact ih k hall

/-- Witness for C3's amended theorem: threshold 1/2 for the fraction 1/2;
with all draws equal to 0 the full grid [0,1,2] is kept, with all draws
equal to 1 nothing is kept. -/
theorem claim_C3_amended_subsample_witness :
    gridFrac (some (1 / 2)) 3 = 1 / 2 ∧
    sampleCombos (fun _ => true) (1 / 2) ([0, 1, 2] : List ℕ) (fun _ => 0) 0 = [0, 1, 2] ∧
    sampleCombos (fun _ => true) (1 / 2) ([0, 1, 2] : List ℕ) (fun _ => 1) 0 = [] := by
  have h := claim_C3_amended_subsample (fun _ => true) (1 / 2) 3 ([0, 1, 2] : List ℕ)
  refine ⟨(h (fun _ => 0)).1 (by norm_num), ?_, ?_⟩
  · have h2 := ((h (fun _ => 0)).2.2.2.1 (1 / 2) 0 (fun n => by norm_num))
    simpa using h2
  · exact (h (fun _ => 1)).2.2.2.2 (1 / 2) 0 (fun n => by norm_num)

/-- C9: a parameter combination whose run reports zero trades gets a NaN
heatmap cell, exactly like a failed run; and when every sampled
combination's cell is NaN, the optimizer returns the statistics of
re-running the *first* sampled combination rather than any maximizing
one. -/
theorem claim_C9_zero_trades {α : Type} (runF : α → Stats) (maximize : Stats → ℚ)
    (combos : List α) :
    (∀ i p, combos.get? i = some p → (runF p).numTrades = 0 →
      (gridHeatmap runF maximize combos).get? i = some (p, none)) ∧
    (combos ≠ [] → (∀ p ∈ combos, (runF p).numTrades = 0) →
      gridSelect runF maximize combos = combos.head?.map runF) := by
  constructor
  · intro i p hres hzero
    unfold gridHeatmap
    rw [List.get?_map, hres]
    have hcell : mpTaskCell runF p = none := by
      unfold mpTaskCell
      rw [if_neg (by simpa using hzero)]
    simp only [Option.map]
    rw [hcell]
  · intro _ hall
    unfold gridSelect
    rw [if_pos ?_]
    rw [List.all_eq_true]
    intro pr hpr
    rcases List.mem_map.1 hpr with ⟨p, hp, rfl⟩
    have hcell : mpTaskCell runF p = none := by
      unfold mpTaskCell
      rw [if_neg (by simpa using hall p hp)]
    rw [hcell]
    rfl

/-- Witness for C9: over combinations [7, 8] the heatmap is all NaN and the
optimizer returns the first combination's statistics. -/
theorem claim_C9_zero_trades_witness :
    (gridHeatmap zeroStatsRun (fun s => (s.numTrades : ℚ)) [7, 8]).get? 0 =
      some (7, none) ∧
    gridSelect zeroStatsRun (fun s => (s.numTrades : ℚ)) [7, 8] =
      some (zeroStatsRun 7) := by
  have h := claim_C9_zero_trades zeroStatsRun (fun s => (s.numTrades : ℚ)) [7, 8]
  refine ⟨h.1 0 7 rfl rfl, ?_⟩
  have h2 := h.2 (by simp) (by intro p hp; fin_cases hp <;> rfl)
  rw [h2]
  rfl

end BackcastPro

